import Mathlib

/-!
# Verification of the Jobbernaut fact-verification core

A shallow embedding, in Lean 4, of the fact-extraction and fact-verification
core of the repository (`src/fact_extractor.py` and `src/fact_verifier.py`),
together with proofs of the behavioural claims made by the specification.

Modelling conventions:
* Python strings are Lean `String`s; most text processing is phrased over
  `List Char` (the `data` of a string).
* Python's regex character classes `\w` and `\s`, and `str.lower`, are
  modelled over the ASCII range (the repository's own data is ASCII); `\w`
  is alphanumeric-or-underscore, exactly as in Python for ASCII text.
* Python `set`s are modelled as duplicate-free lists built by
  insert-if-absent, so that iteration over a set is iteration over a list
  and set difference is `List.filter`.
* Python dict-shaped resume records are modelled as records whose optional
  fields default to the empty string / empty list, mirroring the source's
  tolerant `.get(key, default)` access.
-/

/-- ASCII model of Python's regex word class `\w`: alphanumeric or `_`. -/
def isWordChar (c : Char) : Bool := c.isAlphanum || c == '_'

/-- ASCII model of Python's whitespace class (`\s`, `str.strip`). -/
def isSpaceChar (c : Char) : Bool :=
  c == ' ' || c == '\t' || c == '\n' || c == '\r' || c == '\x0b' || c == '\x0c'

/-- Characters collapsed by the `[-_\s]+` substitution in the normalizers. -/
def isRunChar (c : Char) : Bool := c == '-' || c == '_' || isSpaceChar c

/-- ASCII model of `str.lower` on one character. -/
def toLowerChar (c : Char) : Char :=
  if c = 'A' then 'a' else if c = 'B' then 'b' else if c = 'C' then 'c'
  else if c = 'D' then 'd' else if c = 'E' then 'e' else if c = 'F' then 'f'
  else if c = 'G' then 'g' else if c = 'H' then 'h' else if c = 'I' then 'i'
  else if c = 'J' then 'j' else if c = 'K' then 'k' else if c = 'L' then 'l'
  else if c = 'M' then 'm' else if c = 'N' then 'n' else if c = 'O' then 'o'
  else if c = 'P' then 'p' else if c = 'Q' then 'q' else if c = 'R' then 'r'
  else if c = 'S' then 's' else if c = 'T' then 't' else if c = 'U' then 'u'
  else if c = 'V' then 'v' else if c = 'W' then 'w' else if c = 'X' then 'x'
  else if c = 'Y' then 'y' else if c = 'Z' then 'z' else c

/-- Model of Python `str.strip()`: drop whitespace from both ends. -/
def pyStrip (cs : List Char) : List Char :=
  ((cs.dropWhile isSpaceChar).reverse.dropWhile isSpaceChar).reverse

/-- Worker for `collapseRuns`; the flag records whether the previous input
character belonged to the current `[-_\s]+` run. -/
def collapseAux : Bool → List Char → List Char
  | _, [] => []
  | inRun, c :: cs =>
    if isRunChar c then
      (if inRun then collapseAux true cs else ' ' :: collapseAux true cs)
    else c :: collapseAux false cs

/-- Model of `re.sub(r'[-_\s]+', ' ', s)`: every maximal run of
hyphen/underscore/whitespace becomes a single space. -/
def collapseRuns (cs : List Char) : List Char := collapseAux false cs

/-- `\b` to the right of an all-word-character pattern: next char is
non-word or end of string. -/
def boundaryAfter : List Char → Bool
  | [] => true
  | c :: _ => !isWordChar c

/-- First alternative of the regex alternation that matches at the head of
`cs` (pattern is a literal prefix and is followed by a word boundary);
mirrors the regex engine's left-to-right trial of alternatives. -/
def findPattern (pats : List (List Char)) (cs : List Char) : Option (List Char) :=
  pats.find? (fun p => p.isPrefixOf cs && boundaryAfter (List.drop p.length cs))

/-- Fueled scanner modelling `re.sub(r'\b(p1|p2|...)\b\.?', repl, s)` for
all-letter alternatives `pats` (with the optional trailing period only when
`optDot` is true, as in the company-suffix pattern).  `prevW` records
whether the previous character of the *original* string is a word
character, which is what the regex's left `\b` consults.  The fuel is an
upper bound on the number of scan steps; each step consumes at least one
input character, so `cs.length` fuel is always enough. -/
def subAltAux (pats : List (List Char)) (repl : List Char) (optDot : Bool) :
    Nat → Bool → List Char → List Char
  | 0, _, cs => cs
  | _ + 1, _, [] => []
  | fuel + 1, prevW, c :: cs =>
    match (if prevW then none else findPattern pats (c :: cs)) with
    | some p =>
      match optDot, List.drop p.length (c :: cs) with
      | true, '.' :: rest => repl ++ subAltAux pats repl optDot fuel false rest
      | _, rest => repl ++ subAltAux pats repl optDot fuel (isWordChar (p.getLastD ' ')) rest
    | none => c :: subAltAux pats repl optDot fuel (isWordChar c) cs

/-- `re.sub` over a whole string (left-to-right, non-overlapping, the
replacement is not rescanned). -/
def subAlt (pats : List (List Char)) (repl : List Char) (optDot : Bool)
    (cs : List Char) : List Char :=
  subAltAux pats repl optDot cs.length false cs

/-- The corporate suffix/prefix tokens removed by `normalize_company_name`,
in the source's alternation order. -/
def companySuffixes : List (List Char) :=
  ["inc".data, "llc".data, "ltd".data, "corp".data, "corporation".data,
   "company".data, "co".data]

/-- `FactExtractor.normalize_text`: lowercase and strip; empty input stays
empty. -/
def normalize_text (text : String) : String :=
  if text = "" then "" else String.mk (pyStrip (text.data.map toLowerChar))

/-- `FactExtractor.normalize_company_name`: normalize, strip the corporate
suffix tokens (whole words, optional trailing period), collapse
hyphen/underscore/whitespace runs into single spaces, strip. -/
def normalize_company_name (company : String) : String :=
  let normalized := normalize_text company
  let normalized := subAlt companySuffixes [] true normalized.data
  let normalized := collapseRuns normalized
  String.mk (pyStrip normalized)

/-- `FactExtractor.normalize_institution_name`: normalize, rewrite the two
hardcoded UNC long forms, strip the generic institution words, collapse
punctuation runs, strip. -/
def normalize_institution_name (institution : String) : String :=
  let normalized := normalize_text institution
  let normalized :=
    subAlt ["university of north carolina at chapel hill".data]
      "unc chapel hill".data false normalized.data
  let normalized :=
    subAlt ["university of north carolina".data] "unc".data false normalized
  let normalized :=
    subAlt ["university".data, "college".data, "institute".data, "school".data]
      [] false normalized
  let normalized := collapseRuns normalized
  String.mk (pyStrip normalized)

/-! ## Notions used to analyse `normalize_company_name`

`stripCompany` abbreviates the suffix-removal scan; `NoBadRel` says a
string contains no boundary-delimited occurrence of a suffix token (so the
scan leaves it unchanged); `collapsedOK` characterises the fixed points of
`collapseRuns`. -/

/-- The suffix-removal scan of `normalize_company_name`, with explicit
fuel and left-context flag. -/
def stripCompany (fuel : Nat) (prevW : Bool) (cs : List Char) : List Char :=
  subAltAux companySuffixes [] true fuel prevW cs

/-- The left context of a candidate match admits a word boundary: either
the decomposition's prefix is empty and the context character (tracked by
`prevW`) is non-word, or the prefix ends in a non-word character. -/
def leftOkRel (prevW : Bool) (a : List Char) : Prop :=
  (a = [] → prevW = false) ∧ ∀ c, a.getLast? = some c → isWordChar c = false

/-- `out` (scanned with left context `prevW`) contains no corporate suffix
token delimited by word boundaries, hence nothing for the suffix scan to
remove. -/
def NoBadRel (prevW : Bool) (out : List Char) : Prop :=
  ∀ a p r, p ∈ companySuffixes → out = a ++ p ++ r → boundaryAfter r = true →
    leftOkRel prevW a → False

/-- The lowercase ASCII letters (the range of `toLowerChar` on uppercase
input). -/
def lowerAlpha : List Char := "abcdefghijklmnopqrstuvwxyz".data

/-- Fixed points of `collapseRuns`: every collapsible character is already
a single space and no two adjacent characters are both collapsible. -/
def collapsedOK (w : List Char) : Prop :=
  (∀ c ∈ w, isRunChar c = true → c = ' ') ∧
    w.Chain' (fun a b => isRunChar a = true → isRunChar b = false)

/-! ## Resume records

The dict-shaped resume input, with every optional field defaulted (empty
string / empty list), per the source's `.get(key, default)` access. -/

/-- One `work_experience` entry. -/
structure JobEntry where
  company : String := ""
  job_title : String := ""
  start_date : String := ""
  end_date : String := ""
deriving DecidableEq, Repr

/-- One `education` entry. -/
structure EduEntry where
  institution : String := ""
  degree : String := ""
  graduation_date : String := ""
deriving DecidableEq, Repr

/-- One `projects` entry. -/
structure ProjectEntry where
  project_name : String := ""
  technologies : List String := []
deriving DecidableEq, Repr

/-- A resume record; a missing top-level section is the empty list. The
`skills` section maps category names to comma-separated skill strings. -/
structure Resume where
  work_experience : List JobEntry := []
  education : List EduEntry := []
  skills : List (String × String) := []
  projects : List ProjectEntry := []
deriving DecidableEq, Repr

/-- A Python `set` modelled as a duplicate-free list: add an element only
if it is absent. -/
def insertFact {α : Type} [DecidableEq α] (s : List α) (a : α) : List α :=
  if a ∈ s then s else s ++ [a]

/-- Result of `extract_work_experience_facts`. -/
structure WorkFacts where
  companies : List String
  job_titles : List String
  date_ranges : List (String × String × String)
deriving DecidableEq, Repr

/-- Result of `extract_education_facts`. -/
structure EduFacts where
  institutions : List String
  degrees : List String
  graduation_dates : List (String × String)
deriving DecidableEq, Repr

/-- Result of `extract_project_facts`. -/
structure ProjectFacts where
  project_names : List String
  technologies : List String
deriving DecidableEq, Repr

/-- The body of the `for job in work_exp` loop: a falsy (empty) field
contributes nothing, and the date-range triple is recorded only when
company, start and end are all present. -/
def workStep (acc : WorkFacts) (job : JobEntry) : WorkFacts :=
  { companies :=
      if job.company ≠ "" then insertFact acc.companies (normalize_company_name job.company)
      else acc.companies
    job_titles :=
      if job.job_title ≠ "" then insertFact acc.job_titles (normalize_text job.job_title)
      else acc.job_titles
    date_ranges :=
      if job.company ≠ "" ∧ job.start_date ≠ "" ∧ job.end_date ≠ "" then
        insertFact acc.date_ranges
          (normalize_company_name job.company, job.start_date, job.end_date)
      else acc.date_ranges }

/-- `FactExtractor.extract_work_experience_facts`. -/
def extract_work_experience_facts (work_exp : List JobEntry) : WorkFacts :=
  work_exp.foldl workStep ⟨[], [], []⟩

/-- The body of the `for edu in education` loop. -/
def eduStep (acc : EduFacts) (edu : EduEntry) : EduFacts :=
  { institutions :=
      if edu.institution ≠ "" then
        insertFact acc.institutions (normalize_institution_name edu.institution)
      else acc.institutions
    degrees :=
      if edu.degree ≠ "" then insertFact acc.degrees (normalize_text edu.degree)
      else acc.degrees
    graduation_dates :=
      if edu.institution ≠ "" ∧ edu.graduation_date ≠ "" then
        insertFact acc.graduation_dates
          (normalize_institution_name edu.institution, edu.graduation_date)
      else acc.graduation_dates }

/-- `FactExtractor.extract_education_facts`. -/
def extract_education_facts (education : List EduEntry) : EduFacts :=
  education.foldl eduStep ⟨[], [], []⟩

/-- Python `str.split(',')`: split on every comma; the empty string splits
to one empty piece. -/
def splitOnComma : List Char → List (List Char)
  | [] => [[]]
  | c :: cs =>
    if c = ',' then [] :: splitOnComma cs
    else
      match splitOnComma cs with
      | [] => [[c]]
      | piece :: pieces => (c :: piece) :: pieces

/-- `FactExtractor.extract_skills`: split every category's comma-separated
string, strip each token, and collect the normalized non-empty tokens. -/
def extract_skills (skills : List (String × String)) : List String :=
  skills.foldl
    (fun acc entry =>
      if entry.2 = "" then acc
      else
        ((splitOnComma entry.2.data).map (fun s => String.mk (pyStrip s))).foldl
          (fun acc skill =>
            if skill ≠ "" then insertFact acc (normalize_text skill) else acc)
          acc)
    []

/-- `FactExtractor.extract_project_facts`. -/
def extract_project_facts (projects : List ProjectEntry) : ProjectFacts :=
  projects.foldl
    (fun acc proj =>
      let project_names :=
        if proj.project_name ≠ "" then
          insertFact acc.project_names (normalize_text proj.project_name)
        else acc.project_names
      let technologies :=
        if proj.technologies ≠ [] then
          proj.technologies.foldl
            (fun ts tech => if tech ≠ "" then insertFact ts (normalize_text tech) else ts)
            acc.technologies
        else acc.technologies
      ⟨project_names, technologies⟩)
    ⟨[], []⟩

/-- The canonical fact record returned by `extract_all_facts`. -/
structure FactSet where
  companies : List String
  job_titles : List String
  date_ranges : List (String × String × String)
  institutions : List String
  degrees : List String
  graduation_dates : List (String × String)
  skills : List String
  project_names : List String
  technologies : List String
deriving DecidableEq, Repr

/-- `FactExtractor.extract_all_facts`: compose the section extractors. -/
def extract_all_facts (resume : Resume) : FactSet :=
  let work_facts := extract_work_experience_facts resume.work_experience
  let edu_facts := extract_education_facts resume.education
  let skill_facts := extract_skills resume.skills
  let project_facts := extract_project_facts resume.projects
  { companies := work_facts.companies
    job_titles := work_facts.job_titles
    date_ranges := work_facts.date_ranges
    institutions := edu_facts.institutions
    degrees := edu_facts.degrees
    graduation_dates := edu_facts.graduation_dates
    skills := skill_facts
    project_names := project_facts.project_names
    technologies := project_facts.technologies }

/-! ## The verifier -/

/-- A detected hallucination (an invented fact). -/
structure Hallucination where
  category : String
  claimed_value : String
  context : String
  severity : String
deriving DecidableEq, Repr

/-- Result of a verification call. -/
structure VerificationResult where
  is_valid : Bool
  hallucinations : List Hallucination
deriving DecidableEq, Repr

/-- The verifier's state: the master fact set, extracted once at
construction. -/
structure FactVerifier where
  master_facts : FactSet
deriving DecidableEq, Repr

/-- `FactVerifier.__init__`: bind and pre-extract the master resume. -/
def FactVerifier.ofMaster (master_resume : Resume) : FactVerifier :=
  ⟨extract_all_facts master_resume⟩

/-- The company hallucination record appended by check 1. -/
def companyHall (c : String) : Hallucination :=
  ⟨"company", c, "Work experience", "critical"⟩

/-- The institution hallucination record appended by check 2. -/
def institutionHall (i : String) : Hallucination :=
  ⟨"institution", i, "Education", "critical"⟩

/-- The skill hallucination record appended by check 3. -/
def skillHall (s : String) : Hallucination :=
  ⟨"skill", s, "Skills section", "warning"⟩

/-- The project-name hallucination record appended by check 4. -/
def projectHall (p : String) : Hallucination :=
  ⟨"project_name", p, "Projects section", "warning"⟩

/-- The technology hallucination record appended by check 5. -/
def technologyHall (t : String) : Hallucination :=
  ⟨"technology", t, "Project technologies", "warning"⟩

/-- The date-range hallucination record appended by check 6. -/
def dateRangeHall (t : String × String × String) : Hallucination :=
  ⟨"date_range", t.2.1 ++ " to " ++ t.2.2, "Work experience at " ++ t.1, "critical"⟩

/-- The graduation-date hallucination record appended by check 7. -/
def gradDateHall (p : String × String) : Hallucination :=
  ⟨"graduation_date", p.2, "Education at " ++ p.1, "critical"⟩

/-- The `hallucinations` list accumulated by `verify_resume`'s seven
checks, in the source's append order.  A loop
`for x in set: if cond: append(mk x)` is a filter-then-map over the set's
elements, and the source's set differences for skills/technologies are
exactly the corresponding filters. -/
def verifyHalls (master_facts tailored_facts : FactSet) : List Hallucination :=
  -- 1. companies (critical)
  (tailored_facts.companies.filter (fun c => c ∉ master_facts.companies)).map companyHall
  -- 2. institutions (critical)
  ++ (tailored_facts.institutions.filter
        (fun i => i ∉ master_facts.institutions)).map institutionHall
  -- 3. skills (warning): candidate − master
  ++ (tailored_facts.skills.filter (fun s => s ∉ master_facts.skills)).map skillHall
  -- 4. project names (warning)
  ++ (tailored_facts.project_names.filter
        (fun p => p ∉ master_facts.project_names)).map projectHall
  -- 5. technologies (warning): candidate − master
  ++ (tailored_facts.technologies.filter
        (fun t => t ∉ master_facts.technologies)).map technologyHall
  -- 6. date ranges (critical), only when the company itself is known
  ++ (tailored_facts.date_ranges.filter
        (fun t => t ∉ master_facts.date_ranges ∧ t.1 ∈ master_facts.companies)).map
      dateRangeHall
  -- 7. graduation dates (critical), only when the institution is known
  ++ (tailored_facts.graduation_dates.filter
        (fun p => p ∉ master_facts.graduation_dates ∧ p.1 ∈ master_facts.institutions)).map
      gradDateHall

/-- The body of `FactVerifier.verify_resume`, phrased over the two fact
sets it actually consults (the master's, cached in the verifier, and the
candidate's): `is_valid` iff no critical hallucination was collected. -/
def verifyFacts (master_facts tailored_facts : FactSet) : VerificationResult :=
  { is_valid :=
      ((verifyHalls master_facts tailored_facts).filter
        (fun h => h.severity == "critical")).length == 0
    hallucinations := verifyHalls master_facts tailored_facts }

/-- `FactVerifier.verify_resume`: extract the candidate's facts and check
them against the cached master facts. -/
def FactVerifier.verify_resume (self : FactVerifier) (tailored_resume : Resume) :
    VerificationResult :=
  verifyFacts self.master_facts (extract_all_facts tailored_resume)

/-- `FactVerifier.verify_cover_letter`: a single critical "content"
hallucination when the text is empty or under 100 characters after
stripping; otherwise valid with no hallucinations. -/
def FactVerifier.verify_cover_letter (_self : FactVerifier)
    (cover_letter_text : String) (_tailored_resume : Resume) : VerificationResult :=
  let hallucinations : List Hallucination :=
    if cover_letter_text = "" ∨ (String.mk (pyStrip cover_letter_text.data)).length < 100 then
      [⟨"content", "empty or too short", "Cover letter", "critical"⟩]
    else []
  { is_valid := hallucinations.length == 0
    hallucinations := hallucinations }

/-- `"\n".join(lines)`. -/
def joinLines : List String → String
  | [] => ""
  | [l] => l
  | l :: ls => l ++ "\n" ++ joinLines ls

/-- A line of eighty `=` characters, `"=" * 80`. -/
def bannerLine : String := String.mk (List.replicate 80 '=')

/-- `FactVerifier.format_hallucinations_for_retry`: empty on valid results,
otherwise the banner, the count, the critical block, the warning block and
the fixed closing reminder, joined by newlines. -/
def format_hallucinations_for_retry (result : VerificationResult) : String :=
  if result.is_valid then "" else
  let header : List String :=
    [bannerLine, "⚠️  FACT VERIFICATION ERRORS", bannerLine, "",
     "Found " ++ toString result.hallucinations.length ++ " hallucination(s):", ""]
  let critical := result.hallucinations.filter (fun h => h.severity == "critical")
  let warnings := result.hallucinations.filter (fun h => h.severity == "warning")
  let criticalBlock : List String :=
    if critical ≠ [] then
      "CRITICAL ERRORS (must fix):"
        :: critical.foldr
            (fun h acc =>
              ("  • " ++ h.category ++ ": '" ++ h.claimed_value
                  ++ "' not found in master resume")
                :: ("    Context: " ++ h.context) :: acc)
            [""]
    else []
  let warningBlock : List String :=
    if warnings ≠ [] then
      "WARNINGS (should fix):"
        :: warnings.foldr
            (fun h acc =>
              ("  • " ++ h.category ++ ": '" ++ h.claimed_value
                  ++ "' not found in master resume")
                :: ("    Context: " ++ h.context) :: acc)
            [""]
    else []
  let footer : List String :=
    ["CRITICAL: Only use facts that exist in the master resume.",
     "Do not invent companies, skills, dates, institutions, or education.",
     "Do not modify employment dates or graduation dates.",
     bannerLine, ""]
  joinLines (header ++ criticalBlock ++ warningBlock ++ footer)

/-! ## Concrete fixtures (the specification's worked scenarios) -/

/-- A small master resume used as a concrete fixture. -/
def masterFixture : Resume :=
  { work_experience := [{ company := "Acme Inc.", job_title := "Engineer",
                          start_date := "2019-01", end_date := "2020-06" }]
    education := [{ institution := "UNC Chapel Hill", degree := "BS",
                    graduation_date := "2021-05" }]
    skills := [("Languages", "python, sql")]
    projects := [{ project_name := "Widget", technologies := ["rust"] }] }

/-- The verifier bound to `masterFixture`. -/
def verifierFixture : FactVerifier := FactVerifier.ofMaster masterFixture

example : normalize_text " Foo  Bar " = "foo  bar" := by decide
example : normalize_company_name "Acme Inc." = "acme" := by decide
example : normalize_company_name "ACME" = "acme" := by decide
example : normalize_company_name "Cordova Systems" = "cordova systems" := by decide
example : normalize_company_name "UNC-Chapel Hill" = "unc chapel hill" := by decide
example : normalize_company_name "Acme_Inc" = "acme inc" := by decide
example : normalize_company_name "acme inc" = "acme" := by decide
example : normalize_institution_name "University of North Carolina at Chapel Hill" =
    "unc chapel hill" := by decide
example : normalize_institution_name "UNC Chapel Hill" = "unc chapel hill" := by decide
example : normalize_company_name "inc.corp x" = "x" := by decide
example : normalize_company_name "x.co." = "x." := by decide
example : normalize_company_name "co-inc" = "" := by decide
example : normalize_company_name "co2" = "co2" := by decide
example : normalize_company_name "inc.." = "." := by decide
example : normalize_company_name "incco" = "incco" := by decide
example : normalize_company_name "x_co" = "x co" := by decide
example : normalize_company_name "a-_ b" = "a b" := by decide
example : normalize_company_name "Acme, Inc." = "acme," := by decide
example : normalize_company_name "company co" = "" := by decide
example : normalize_company_name "ltd.ltd" = "" := by decide
example : normalize_company_name "corporation" = "" := by decide
example : normalize_institution_name "University of North Carolina" = "unc" := by decide
example : normalize_institution_name "Duke University" = "duke" := by decide
example : normalize_institution_name "School of Rock" = "of rock" := by decide

example : verifierFixture.master_facts.companies = ["acme"] := by decide
example : verifierFixture.master_facts.skills = ["python", "sql"] := by decide

/-- Subset tolerance: dropping a master skill yields zero hallucinations. -/
example :
    verifierFixture.verify_resume { skills := [("Languages", "python")] } =
      { is_valid := true, hallucinations := [] } := by decide

/-- Superset flags a warning only. -/
example :
    verifierFixture.verify_resume { skills := [("Languages", "python, rust")] } =
      { is_valid := true,
        hallucinations := [⟨"skill", "rust", "Skills section", "warning"⟩] } := by decide

/-- Unknown company is critical. -/
example :
    verifierFixture.verify_resume
        { work_experience := [{ company := "Initech" }] } =
      { is_valid := false,
        hallucinations := [⟨"company", "initech", "Work experience", "critical"⟩] } := by
  decide

/-- Known company with altered dates: exactly one date-range hallucination. -/
example :
    verifierFixture.verify_resume
        { work_experience := [{ company := "Acme", start_date := "2020-01",
                                end_date := "2021-01" }] } =
      { is_valid := false,
        hallucinations := [⟨"date_range", "2020-01 to 2021-01",
                            "Work experience at acme", "critical"⟩] } := by decide

/-! ## General helper lemmas -/

/-- An invariant preserved by every step of a left fold holds of the
result. -/
theorem foldl_inv {σ α : Type} {P : σ → Prop} {step : σ → α → σ}
    (hstep : ∀ s a, P s → P (step s a)) :
    ∀ (l : List α) (s : σ), P s → P (l.foldl step s)
  | [], _, hs => hs
  | a :: l, s, hs => foldl_inv hstep l (step s a) (hstep s a hs)

theorem mem_insertFact {α : Type} [DecidableEq α] {s : List α} {a b : α} :
    b ∈ insertFact s a ↔ b ∈ s ∨ b = a := by
  unfold insertFact
  split
  · rename_i h
    constructor
    · exact Or.inl
    · rintro (hb | rfl)
      · exact hb
      · exact h
  · simp [List.mem_append]

theorem mem_insertFact_of_mem {α : Type} [DecidableEq α] {s : List α} {b : α} (a : α)
    (h : b ∈ s) : b ∈ insertFact s a :=
  mem_insertFact.mpr (Or.inl h)

theorem self_mem_insertFact {α : Type} [DecidableEq α] (s : List α) (a : α) :
    a ∈ insertFact s a :=
  mem_insertFact.mpr (Or.inr rfl)

theorem nodup_insertFact {α : Type} [DecidableEq α] {s : List α} (a : α)
    (h : s.Nodup) : (insertFact s a).Nodup := by
  unfold insertFact
  split
  · exact h
  · rename_i ha
    simp [List.nodup_append, h, ha]

/-- The Boolean test `is_valid` computes is the "no critical hallucination"
predicate. -/
theorem critical_filter_len_iff (l : List Hallucination) :
    ((l.filter (fun h => h.severity == "critical")).length == 0) = true ↔
      ∀ h ∈ l, h.severity ≠ "critical" := by
  simp [List.length_eq_zero, List.filter_eq_nil_iff]

/-- A member of a mapped block whose category is constant and differs from
`cat` never survives the category filter. -/
theorem filter_cat_map_nil {α : Type} (cat : String) (f : α → Hallucination) (l : List α)
    (hf : ∀ x, (f x).category ≠ cat) :
    (l.map f).filter (fun h => h.category == cat) = [] := by
  rw [List.filter_eq_nil_iff]
  intro a ha
  rcases List.mem_map.mp ha with ⟨x, _, rfl⟩
  simp [hf]

/-- A mapped block whose category is constantly `cat` survives the category
filter unchanged. -/
theorem filter_cat_map_self {α : Type} (cat : String) (f : α → Hallucination) (l : List α)
    (hf : ∀ x, (f x).category = cat) :
    (l.map f).filter (fun h => h.category == cat) = l.map f := by
  rw [List.filter_eq_self]
  intro a ha
  rcases List.mem_map.mp ha with ⟨x, _, rfl⟩
  simp [hf]

/-- Any critical member of the hallucination list forces `is_valid = false`. -/
theorem is_valid_false_of_mem_critical {mf tf : FactSet} {h : Hallucination}
    (hm : h ∈ verifyHalls mf tf) (hs : h.severity = "critical") :
    (verifyFacts mf tf).is_valid = false := by
  have hmem : h ∈ (verifyHalls mf tf).filter (fun x => x.severity == "critical") :=
    List.mem_filter.mpr ⟨hm, by simp [hs]⟩
  have hlen : ((verifyHalls mf tf).filter (fun x => x.severity == "critical")).length ≠ 0 := by
    intro h0
    rw [List.length_eq_zero] at h0
    simp [h0] at hmem
  simp only [verifyFacts]
  exact beq_eq_false_iff_ne.mpr hlen

/-! ## C1: `is_valid` iff no critical hallucination -/

/-- **C1.** For every master and candidate resume, the result of
`verify_resume` has `is_valid = true` iff no hallucination in its list has
severity `"critical"` (so warnings alone never invalidate). -/
theorem verify_is_valid_iff_no_critical (v : FactVerifier) (t : Resume) :
    (v.verify_resume t).is_valid = true ↔
      ∀ h ∈ (v.verify_resume t).hallucinations, h.severity ≠ "critical" := by
  simp only [FactVerifier.verify_resume, verifyFacts]
  exact critical_filter_len_iff _

/-- Witness for C1 at a concrete warning-only verification. -/
theorem verify_is_valid_iff_no_critical_witness :
    (verifierFixture.verify_resume { skills := [("Languages", "python, rust")] }).is_valid
      = true :=
  (verify_is_valid_iff_no_critical verifierFixture
    { skills := [("Languages", "python, rust")] }).mpr (by decide)

/-! ## C5: extraction from an empty resume is total and empty -/

/-- **C5.** `extract_all_facts` on the empty record returns a `FactSet`
whose every member is empty (and raises nothing: it is a total function);
more generally each empty/missing section contributes empty sets. -/
theorem extract_all_facts_empty_safe :
    (extract_all_facts {} = ⟨[], [], [], [], [], [], [], [], []⟩) ∧
    (∀ r : Resume, r.work_experience = [] →
      (extract_all_facts r).companies = [] ∧ (extract_all_facts r).job_titles = [] ∧
        (extract_all_facts r).date_ranges = []) ∧
    (∀ r : Resume, r.education = [] →
      (extract_all_facts r).institutions = [] ∧ (extract_all_facts r).degrees = [] ∧
        (extract_all_facts r).graduation_dates = []) ∧
    (∀ r : Resume, r.skills = [] → (extract_all_facts r).skills = []) ∧
    (∀ r : Resume, r.projects = [] →
      (extract_all_facts r).project_names = [] ∧ (extract_all_facts r).technologies = []) := by
  refine ⟨by decide, ?_, ?_, ?_, ?_⟩ <;> intro r h <;>
    simp [extract_all_facts, extract_work_experience_facts, extract_education_facts,
      extract_skills, extract_project_facts, h]

/-- Witness for C5 at a resume whose sections are all present but empty. -/
theorem extract_all_facts_empty_safe_witness :
    (extract_all_facts ⟨[], [⟨"UNC", "BS", "2021-05"⟩], [], []⟩).companies = [] :=
  (extract_all_facts_empty_safe.2.1 _ rfl).1

/-! ## C8: cover-letter verification -/

/-- **C8.** `verify_cover_letter` returns exactly one critical `"content"`
hallucination and `is_valid = false` when the text is empty or its
stripped length is under 100, and a valid result with no hallucinations
otherwise. -/
theorem verify_cover_letter_spec (v : FactVerifier) (text : String) (r : Resume) :
    ((text = "" ∨ (String.mk (pyStrip text.data)).length < 100) →
      v.verify_cover_letter text r =
        ⟨false, [⟨"content", "empty or too short", "Cover letter", "critical"⟩]⟩) ∧
    (¬(text = "" ∨ (String.mk (pyStrip text.data)).length < 100) →
      v.verify_cover_letter text r = ⟨true, []⟩) := by
  constructor <;> intro h <;> simp only [FactVerifier.verify_cover_letter]
  · rw [if_pos h]; rfl
  · rw [if_neg h]; rfl

/-- Witness for C8 at the empty cover letter. -/
theorem verify_cover_letter_spec_witness :
    verifierFixture.verify_cover_letter "" {} =
      ⟨false, [⟨"content", "empty or too short", "Cover letter", "critical"⟩]⟩ :=
  (verify_cover_letter_spec verifierFixture "" {}).1 (Or.inl rfl)

/-! ## C2: unknown companies and institutions are critical -/

/-- Check 1 contributes its hallucination for every unknown candidate
company. -/
theorem companyHall_mem_verifyHalls {mf tf : FactSet} {c : String}
    (hc : c ∈ tf.companies) (hnot : c ∉ mf.companies) :
    companyHall c ∈ verifyHalls mf tf := by
  unfold verifyHalls
  exact List.mem_append_left _ (List.mem_append_left _ (List.mem_append_left _
    (List.mem_append_left _ (List.mem_append_left _ (List.mem_append_left _
      (List.mem_map_of_mem _ (List.mem_filter.mpr ⟨hc, decide_eq_true hnot⟩)))))))

/-- Check 2 contributes its hallucination for every unknown candidate
institution. -/
theorem institutionHall_mem_verifyHalls {mf tf : FactSet} {i : String}
    (hi : i ∈ tf.institutions) (hnot : i ∉ mf.institutions) :
    institutionHall i ∈ verifyHalls mf tf := by
  unfold verifyHalls
  exact List.mem_append_left _ (List.mem_append_left _ (List.mem_append_left _
    (List.mem_append_left _ (List.mem_append_left _ (List.mem_append_right _
      (List.mem_map_of_mem _ (List.mem_filter.mpr ⟨hi, decide_eq_true hnot⟩)))))))

/-- **C2.** Every normalized candidate company absent from the master's
companies yields the critical `"company"` hallucination, every candidate
institution absent from the master's institutions yields the critical
`"institution"` hallucination, and the presence of any such unknown
company or institution makes `is_valid` false. -/
theorem verify_unknown_company_institution_critical (v : FactVerifier) (t : Resume) :
    (∀ c ∈ (extract_all_facts t).companies, c ∉ v.master_facts.companies →
      companyHall c ∈ (v.verify_resume t).hallucinations) ∧
    (∀ i ∈ (extract_all_facts t).institutions, i ∉ v.master_facts.institutions →
      institutionHall i ∈ (v.verify_resume t).hallucinations) ∧
    (((∃ c ∈ (extract_all_facts t).companies, c ∉ v.master_facts.companies) ∨
        (∃ i ∈ (extract_all_facts t).institutions, i ∉ v.master_facts.institutions)) →
      (v.verify_resume t).is_valid = false) := by
  refine ⟨?_, ?_, ?_⟩
  · intro c hc hnot
    exact companyHall_mem_verifyHalls hc hnot
  · intro i hi hnot
    exact institutionHall_mem_verifyHalls hi hnot
  · rintro (⟨c, hc, hnot⟩ | ⟨i, hi, hnot⟩)
    · exact is_valid_false_of_mem_critical (companyHall_mem_verifyHalls hc hnot) rfl
    · exact is_valid_false_of_mem_critical (institutionHall_mem_verifyHalls hi hnot) rfl

/-- Witness for C2: the unknown company `"Initech"` is flagged and
invalidates. -/
theorem verify_unknown_company_institution_critical_witness :
    companyHall "initech" ∈
        (verifierFixture.verify_resume
          { work_experience := [{ company := "Initech" }] }).hallucinations ∧
      (verifierFixture.verify_resume
          { work_experience := [{ company := "Initech" }] }).is_valid = false :=
  ⟨(verify_unknown_company_institution_critical verifierFixture
      { work_experience := [{ company := "Initech" }] }).1 "initech" (by decide) (by decide),
   (verify_unknown_company_institution_critical verifierFixture
      { work_experience := [{ company := "Initech" }] }).2.2
     (Or.inl ⟨"initech", by decide, by decide⟩)⟩

/-! ## C4: skills and technologies flag exactly the set difference, as
warnings -/

/-- The skill block of the hallucination list is exactly the mapped set
difference. -/
theorem verifyHalls_filter_skill (mf tf : FactSet) :
    (verifyHalls mf tf).filter (fun h => h.category == "skill") =
      (tf.skills.filter (fun s => s ∉ mf.skills)).map skillHall := by
  simp only [verifyHalls, List.filter_append]
  rw [filter_cat_map_nil _ companyHall _ (fun x => by simp [companyHall]),
    filter_cat_map_nil _ institutionHall _ (fun x => by simp [institutionHall]),
    filter_cat_map_self _ skillHall _ (fun x => rfl),
    filter_cat_map_nil _ projectHall _ (fun x => by simp [projectHall]),
    filter_cat_map_nil _ technologyHall _ (fun x => by simp [technologyHall]),
    filter_cat_map_nil _ dateRangeHall _ (fun x => by simp [dateRangeHall]),
    filter_cat_map_nil _ gradDateHall _ (fun x => by simp [gradDateHall])]
  simp

/-- The technology block of the hallucination list is exactly the mapped
set difference. -/
theorem verifyHalls_filter_technology (mf tf : FactSet) :
    (verifyHalls mf tf).filter (fun h => h.category == "technology") =
      (tf.technologies.filter (fun s => s ∉ mf.technologies)).map technologyHall := by
  simp only [verifyHalls, List.filter_append]
  rw [filter_cat_map_nil _ companyHall _ (fun x => by simp [companyHall]),
    filter_cat_map_nil _ institutionHall _ (fun x => by simp [institutionHall]),
    filter_cat_map_nil _ skillHall _ (fun x => by simp [skillHall]),
    filter_cat_map_nil _ projectHall _ (fun x => by simp [projectHall]),
    filter_cat_map_self _ technologyHall _ (fun x => rfl),
    filter_cat_map_nil _ dateRangeHall _ (fun x => by simp [dateRangeHall]),
    filter_cat_map_nil _ gradDateHall _ (fun x => by simp [gradDateHall])]
  simp

/-- **C4.** The skill hallucinations are exactly the candidate−master
skill difference mapped to warning records, likewise for technologies, and
a candidate whose skills are a subset of the master's produces no skill
hallucination at all. -/
theorem verify_skills_technologies_difference (v : FactVerifier) (t : Resume) :
    ((v.verify_resume t).hallucinations.filter (fun h => h.category == "skill") =
      ((extract_all_facts t).skills.filter
          (fun s => s ∉ v.master_facts.skills)).map skillHall) ∧
    ((v.verify_resume t).hallucinations.filter (fun h => h.category == "technology") =
      ((extract_all_facts t).technologies.filter
          (fun s => s ∉ v.master_facts.technologies)).map technologyHall) ∧
    ((∀ s ∈ (extract_all_facts t).skills, s ∈ v.master_facts.skills) →
      (v.verify_resume t).hallucinations.filter (fun h => h.category == "skill") = []) := by
  refine ⟨verifyHalls_filter_skill _ _, verifyHalls_filter_technology _ _, fun hsub => ?_⟩
  rw [show (v.verify_resume t).hallucinations = verifyHalls v.master_facts
      (extract_all_facts t) from rfl, verifyHalls_filter_skill]
  have : (extract_all_facts t).skills.filter
      (fun s => s ∉ v.master_facts.skills) = [] := by
    rw [List.filter_eq_nil_iff]
    intro s hs
    simp [hsub s hs]
  rw [this]
  rfl

/-- Witness for C4: the `{"python","rust"}` candidate against the
`{"python","sql"}` master flags exactly `rust`. -/
theorem verify_skills_technologies_difference_witness :
    (verifierFixture.verify_resume
        { skills := [("Languages", "python, rust")] }).hallucinations.filter
        (fun h => h.category == "skill") = [skillHall "rust"] := by
  rw [(verify_skills_technologies_difference verifierFixture
    { skills := [("Languages", "python, rust")] }).1]
  decide

/-! ## Extraction invariants shared by C3 and C10 -/

/-- Every date-range triple extracted from work experience carries a
company that is itself in the extracted companies set. -/
theorem work_facts_date_company_mem (work_exp : List JobEntry) :
    ∀ tr ∈ (extract_work_experience_facts work_exp).date_ranges,
      tr.1 ∈ (extract_work_experience_facts work_exp).companies := by
  unfold extract_work_experience_facts
  refine foldl_inv (P := fun acc : WorkFacts =>
    ∀ tr ∈ acc.date_ranges, tr.1 ∈ acc.companies) ?_ work_exp ⟨[], [], []⟩ (by simp)
  intro acc job hinv tr htr
  unfold workStep at htr ⊢
  dsimp only at htr ⊢
  by_cases hdr : job.company ≠ "" ∧ job.start_date ≠ "" ∧ job.end_date ≠ ""
  · rw [if_pos hdr] at htr
    rcases mem_insertFact.mp htr with hold | rfl
    · rw [if_pos hdr.1]
      exact mem_insertFact_of_mem _ (hinv tr hold)
    · rw [if_pos hdr.1]
      exact self_mem_insertFact _ _
  · rw [if_neg hdr] at htr
    split
    · exact mem_insertFact_of_mem _ (hinv tr htr)
    · exact hinv tr htr

/-- Every graduation-date pair extracted from education carries an
institution that is itself in the extracted institutions set. -/
theorem edu_facts_grad_institution_mem (education : List EduEntry) :
    ∀ p ∈ (extract_education_facts education).graduation_dates,
      p.1 ∈ (extract_education_facts education).institutions := by
  unfold extract_education_facts
  refine foldl_inv (P := fun acc : EduFacts =>
    ∀ p ∈ acc.graduation_dates, p.1 ∈ acc.institutions) ?_ education ⟨[], [], []⟩ (by simp)
  intro acc edu hinv p hp
  unfold eduStep at hp ⊢
  dsimp only at hp ⊢
  by_cases hgd : edu.institution ≠ "" ∧ edu.graduation_date ≠ ""
  · rw [if_pos hgd] at hp
    rcases mem_insertFact.mp hp with hold | rfl
    · rw [if_pos hgd.1]
      exact mem_insertFact_of_mem _ (hinv p hold)
    · rw [if_pos hgd.1]
      exact self_mem_insertFact _ _
  · rw [if_neg hgd] at hp
    split
    · exact mem_insertFact_of_mem _ (hinv p hp)
    · exact hinv p hp

/-- The extracted date-range list is duplicate-free (it models a set). -/
theorem work_facts_date_ranges_nodup (work_exp : List JobEntry) :
    (extract_work_experience_facts work_exp).date_ranges.Nodup := by
  unfold extract_work_experience_facts
  refine foldl_inv (P := fun acc : WorkFacts => acc.date_ranges.Nodup)
    ?_ work_exp ⟨[], [], []⟩ (by simp)
  intro acc job hnd
  unfold workStep
  dsimp only
  split
  · exact nodup_insertFact _ hnd
  · exact hnd

/-! ## C3: date-range policy -/

/-- The date-range block of the hallucination list is exactly the mapped
filter of unknown triples at known companies. -/
theorem verifyHalls_filter_dateRange (mf tf : FactSet) :
    (verifyHalls mf tf).filter (fun h => h.category == "date_range") =
      (tf.date_ranges.filter
        (fun tr => tr ∉ mf.date_ranges ∧ tr.1 ∈ mf.companies)).map dateRangeHall := by
  simp only [verifyHalls, List.filter_append]
  rw [filter_cat_map_nil _ companyHall _ (fun x => by simp [companyHall]),
    filter_cat_map_nil _ institutionHall _ (fun x => by simp [institutionHall]),
    filter_cat_map_nil _ skillHall _ (fun x => by simp [skillHall]),
    filter_cat_map_nil _ projectHall _ (fun x => by simp [projectHall]),
    filter_cat_map_nil _ technologyHall _ (fun x => by simp [technologyHall]),
    filter_cat_map_self _ dateRangeHall _ (fun x => rfl),
    filter_cat_map_nil _ gradDateHall _ (fun x => by simp [gradDateHall])]
  simp

/-- **C3.** The date-range hallucinations are exactly one critical record
per candidate triple that is absent from the master's date ranges while
its company is a known master company (the triple list is duplicate-free,
so "exactly one" holds per triple); a triple whose company is unknown
contributes no date-range hallucination — only the company hallucination
already emitted by the company check. -/
theorem verify_date_range_policy (v : FactVerifier) (t : Resume) :
    ((v.verify_resume t).hallucinations.filter (fun h => h.category == "date_range") =
      ((extract_all_facts t).date_ranges.filter
        (fun tr => tr ∉ v.master_facts.date_ranges ∧
          tr.1 ∈ v.master_facts.companies)).map dateRangeHall) ∧
    (extract_all_facts t).date_ranges.Nodup ∧
    (∀ tr ∈ (extract_all_facts t).date_ranges, tr.1 ∉ v.master_facts.companies →
      companyHall tr.1 ∈ (v.verify_resume t).hallucinations) := by
  refine ⟨verifyHalls_filter_dateRange _ _, work_facts_date_ranges_nodup _, ?_⟩
  intro tr htr hnot
  exact companyHall_mem_verifyHalls (work_facts_date_company_mem _ tr htr) hnot

/-- Witness for C3 at the altered-dates fixture. -/
theorem verify_date_range_policy_witness :
    (verifierFixture.verify_resume
        { work_experience := [{ company := "Acme", start_date := "2020-01",
                                end_date := "2021-01" }] }).hallucinations.filter
        (fun h => h.category == "date_range") =
      [dateRangeHall ("acme", "2020-01", "2021-01")] := by
  rw [(verify_date_range_policy verifierFixture
    { work_experience := [{ company := "Acme", start_date := "2020-01",
                            end_date := "2021-01" }] }).1]
  decide

/-! ## C10: extraction membership invariants -/

/-- **C10.** Every extracted date-range triple's company is in the
extracted companies set, and every extracted graduation-date pair's
institution is in the extracted institutions set. -/
theorem extraction_membership_invariant :
    (∀ work_exp : List JobEntry,
      ∀ tr ∈ (extract_work_experience_facts work_exp).date_ranges,
        tr.1 ∈ (extract_work_experience_facts work_exp).companies) ∧
    (∀ education : List EduEntry,
      ∀ p ∈ (extract_education_facts education).graduation_dates,
        p.1 ∈ (extract_education_facts education).institutions) :=
  ⟨work_facts_date_company_mem, edu_facts_grad_institution_mem⟩

/-- Witness for C10 at the master fixture's single job and degree. -/
theorem extraction_membership_invariant_witness :
    "acme" ∈ (extract_work_experience_facts masterFixture.work_experience).companies ∧
      "unc chapel hill" ∈
        (extract_education_facts masterFixture.education).institutions :=
  ⟨extraction_membership_invariant.1 masterFixture.work_experience
      ("acme", "2019-01", "2020-06") (by decide),
   extraction_membership_invariant.2 masterFixture.education
      ("unc chapel hill", "2021-05") (by decide)⟩

/-! ## C9: job titles and degrees are extracted but never verified -/

/-- Every hallucination the verifier can emit carries one of the seven
fixed category strings. -/
theorem verifyHalls_category_cases {mf tf : FactSet} {h : Hallucination}
    (hm : h ∈ verifyHalls mf tf) :
    h.category ∈ (["company", "institution", "skill", "project_name", "technology",
      "date_range", "graduation_date"] : List String) := by
  simp only [verifyHalls, List.mem_append] at hm
  rcases hm with ((((((hm | hm) | hm) | hm) | hm) | hm) | hm) <;>
    (rcases List.mem_map.mp hm with ⟨x, _, rfl⟩ ;
     simp [companyHall, institutionHall, skillHall, projectHall, technologyHall,
       dateRangeHall, gradDateHall])

/-- `workStep` never removes a job title. -/
theorem workStep_titles_mono {x : String} (s : WorkFacts) (a : JobEntry)
    (h : x ∈ s.job_titles) : x ∈ (workStep s a).job_titles := by
  unfold workStep
  dsimp only
  split
  · exact mem_insertFact_of_mem _ h
  · exact h

/-- `eduStep` never removes a degree. -/
theorem eduStep_degrees_mono {x : String} (s : EduFacts) (a : EduEntry)
    (h : x ∈ s.degrees) : x ∈ (eduStep s a).degrees := by
  unfold eduStep
  dsimp only
  split
  · exact mem_insertFact_of_mem _ h
  · exact h

/-- A non-empty job title of any entry ends up in the extracted
job-title set, whatever the accumulator. -/
theorem work_titles_mem_foldl :
    ∀ (l : List JobEntry) (acc : WorkFacts) (j : JobEntry), j ∈ l → j.job_title ≠ "" →
      normalize_text j.job_title ∈ (l.foldl workStep acc).job_titles := by
  intro l
  induction l with
  | nil =>
    intro acc j hj
    exact absurd hj (List.not_mem_nil _)
  | cons a l ih =>
    intro acc j hj ht
    rcases List.mem_cons.mp hj with rfl | hj'
    · simp only [List.foldl_cons]
      refine foldl_inv (fun s b => workStep_titles_mono s b) l _ ?_
      unfold workStep
      dsimp only
      rw [if_pos ht]
      exact self_mem_insertFact _ _
    · exact ih (workStep acc a) j hj' ht

/-- A non-empty degree of any entry ends up in the extracted degree set,
whatever the accumulator. -/
theorem edu_degrees_mem_foldl :
    ∀ (l : List EduEntry) (acc : EduFacts) (e : EduEntry), e ∈ l → e.degree ≠ "" →
      normalize_text e.degree ∈ (l.foldl eduStep acc).degrees := by
  intro l
  induction l with
  | nil =>
    intro acc e he
    exact absurd he (List.not_mem_nil _)
  | cons a l ih =>
    intro acc e he hd
    rcases List.mem_cons.mp he with rfl | he'
    · simp only [List.foldl_cons]
      refine foldl_inv (fun s b => eduStep_degrees_mono s b) l _ ?_
      unfold eduStep
      dsimp only
      rw [if_pos hd]
      exact self_mem_insertFact _ _
    · exact ih (eduStep acc a) e he' hd

/-- **C9.** The verifier never consults candidate job titles or degrees:
replacing them changes nothing, no emitted hallucination carries a
job-title or degree category, yet non-empty job titles and degrees are
extracted into the fact set. -/
theorem verify_ignores_job_titles_degrees :
    (∀ (mf tf : FactSet) (jt dg : List String),
      verifyFacts mf { tf with job_titles := jt, degrees := dg } = verifyFacts mf tf) ∧
    (∀ (v : FactVerifier) (t : Resume), ∀ h ∈ (v.verify_resume t).hallucinations,
      h.category ≠ "job_title" ∧ h.category ≠ "degree") ∧
    (∀ (l : List JobEntry) (j : JobEntry), j ∈ l → j.job_title ≠ "" →
      normalize_text j.job_title ∈ (extract_work_experience_facts l).job_titles) ∧
    (∀ (l : List EduEntry) (e : EduEntry), e ∈ l → e.degree ≠ "" →
      normalize_text e.degree ∈ (extract_education_facts l).degrees) := by
  refine ⟨fun mf tf jt dg => rfl, ?_, ?_, ?_⟩
  · intro v t h hm
    have hcat := verifyHalls_category_cases hm
    simp only [List.mem_cons, List.not_mem_nil, or_false] at hcat
    rcases hcat with hc | hc | hc | hc | hc | hc | hc <;> rw [hc] <;>
      exact ⟨by decide, by decide⟩
  · exact fun l j => work_titles_mem_foldl l ⟨[], [], []⟩ j
  · exact fun l e => edu_degrees_mem_foldl l ⟨[], [], []⟩ e

/-- Witness for C9: a concrete emitted hallucination has neither banned
category, and the fixture's job title and degree are extracted. -/
theorem verify_ignores_job_titles_degrees_witness :
    ((skillHall "rust").category ≠ "job_title" ∧
      (skillHall "rust").category ≠ "degree") ∧
    "engineer" ∈ (extract_work_experience_facts masterFixture.work_experience).job_titles ∧
    "bs" ∈ (extract_education_facts masterFixture.education).degrees :=
  ⟨verify_ignores_job_titles_degrees.2.1 verifierFixture
      { skills := [("Languages", "python, rust")] } (skillHall "rust") (by decide),
   verify_ignores_job_titles_degrees.2.2.1 masterFixture.work_experience
      ⟨"Acme Inc.", "Engineer", "2019-01", "2020-06"⟩ (by decide) (by decide),
   verify_ignores_job_titles_degrees.2.2.2 masterFixture.education
      ⟨"UNC Chapel Hill", "BS", "2021-05"⟩ (by decide) (by decide)⟩

/-! ## C7: retry feedback is empty exactly on valid results -/

/-- `joinLines` of a list whose head is non-empty is non-empty. -/
theorem joinLines_cons_ne (a : String) (ls : List String) (ha : a.length ≠ 0) :
    joinLines (a :: ls) ≠ "" := by
  cases ls with
  | nil =>
    intro h
    have ha' : a = "" := h
    exact ha (by rw [ha']; rfl)
  | cons b ls =>
    intro h
    have hlen := congrArg String.length h
    rw [show joinLines (a :: b :: ls) = a ++ "\n" ++ joinLines (b :: ls) from rfl,
      String.length_append, String.length_append] at hlen
    simp at hlen
    omega

/-- **C7.** `format_hallucinations_for_retry` returns the empty string iff
the result is valid: valid results (warnings included) give `""`, every
invalid result gives non-empty feedback. -/
theorem format_empty_iff_valid (result : VerificationResult) :
    format_hallucinations_for_retry result = "" ↔ result.is_valid = true := by
  constructor
  · intro h
    by_contra hv
    unfold format_hallucinations_for_retry at h
    rw [if_neg hv] at h
    revert h
    simp only [List.cons_append, List.append_assoc]
    exact joinLines_cons_ne _ _ (by decide)
  · intro h
    unfold format_hallucinations_for_retry
    rw [if_pos h]

/-- Witness for C7 at a warning-only (valid) result. -/
theorem format_empty_iff_valid_witness :
    format_hallucinations_for_retry ⟨true, [skillHall "rust"]⟩ = "" :=
  (format_empty_iff_valid ⟨true, [skillHall "rust"]⟩).mpr rfl

/-! ## C6: idempotence of `normalize_company_name`

The claim as stated is false: in the source, suffix stripping runs
*before* `[-_\s]+` collapsing, and `_` is a word character for `\b`, so in
`"acme_inc"` the token `inc` is protected by the underscore on the first
pass, exposed once the underscore becomes a space, and stripped by a
second pass.  On underscore-free strings the function is idempotent; the
proof occupies the rest of this section. -/

/-- **C6, counterexample.** `normalize_company_name` is not idempotent at
`"Acme_Inc"`: one application gives `"acme inc"`, two give `"acme"`. -/
theorem normalize_company_name_not_idempotent :
    normalize_company_name (normalize_company_name "Acme_Inc") ≠
      normalize_company_name "Acme_Inc" := by decide

/-- `toLowerChar` returns a lowercase letter or its argument unchanged. -/
theorem toLowerChar_cases (c : Char) :
    toLowerChar c ∈ lowerAlpha ∨ toLowerChar c = c := by
  unfold toLowerChar
  by_cases hA : c = 'A'
  · subst hA; exact Or.inl (by decide)
  rw [if_neg hA]
  by_cases hB : c = 'B'
  · subst hB; exact Or.inl (by decide)
  rw [if_neg hB]
  by_cases hC : c = 'C'
  · subst hC; exact Or.inl (by decide)
  rw [if_neg hC]
  by_cases hD : c = 'D'
  · subst hD; exact Or.inl (by decide)
  rw [if_neg hD]
  by_cases hE : c = 'E'
  · subst hE; exact Or.inl (by decide)
  rw [if_neg hE]
  by_cases hF : c = 'F'
  · subst hF; exact Or.inl (by decide)
  rw [if_neg hF]
  by_cases hG : c = 'G'
  · subst hG; exact Or.inl (by decide)
  rw [if_neg hG]
  by_cases hH : c = 'H'
  · subst hH; exact Or.inl (by decide)
  rw [if_neg hH]
  by_cases hI : c = 'I'
  · subst hI; exact Or.inl (by decide)
  rw [if_neg hI]
  by_cases hJ : c = 'J'
  · subst hJ; exact Or.inl (by decide)
  rw [if_neg hJ]
  by_cases hK : c = 'K'
  · subst hK; exact Or.inl (by decide)
  rw [if_neg hK]
  by_cases hL : c = 'L'
  · subst hL; exact Or.inl (by decide)
  rw [if_neg hL]
  by_cases hM : c = 'M'
  · subst hM; exact Or.inl (by decide)
  rw [if_neg hM]
  by_cases hN : c = 'N'
  · subst hN; exact Or.inl (by decide)
  rw [if_neg hN]
  by_cases hO : c = 'O'
  · subst hO; exact Or.inl (by decide)
  rw [if_neg hO]
  by_cases hP : c = 'P'
  · subst hP; exact Or.inl (by decide)
  rw [if_neg hP]
  by_cases hQ : c = 'Q'
  · subst hQ; exact Or.inl (by decide)
  rw [if_neg hQ]
  by_cases hR : c = 'R'
  · subst hR; exact Or.inl (by decide)
  rw [if_neg hR]
  by_cases hS : c = 'S'
  · subst hS; exact Or.inl (by decide)
  rw [if_neg hS]
  by_cases hT : c = 'T'
  · subst hT; exact Or.inl (by decide)
  rw [if_neg hT]
  by_cases hU : c = 'U'
  · subst hU; exact Or.inl (by decide)
  rw [if_neg hU]
  by_cases hV : c = 'V'
  · subst hV; exact Or.inl (by decide)
  rw [if_neg hV]
  by_cases hW : c = 'W'
  · subst hW; exact Or.inl (by decide)
  rw [if_neg hW]
  by_cases hX : c = 'X'
  · subst hX; exact Or.inl (by decide)
  rw [if_neg hX]
  by_cases hY : c = 'Y'
  · subst hY; exact Or.inl (by decide)
  rw [if_neg hY]
  by_cases hZ : c = 'Z'
  · subst hZ; exact Or.inl (by decide)
  rw [if_neg hZ]
  exact Or.inr rfl

/-- Lowercase letters are fixed by `toLowerChar`. -/
theorem toLowerChar_fix_lower : ∀ d ∈ lowerAlpha, toLowerChar d = d := by decide

theorem toLowerChar_idem (c : Char) :
    toLowerChar (toLowerChar c) = toLowerChar c := by
  rcases toLowerChar_cases c with h | h
  · exact toLowerChar_fix_lower _ h
  · rw [h, h]

/-- `toLowerChar` never produces an underscore from another character. -/
theorem toLowerChar_eq_underscore {c : Char} (h : toLowerChar c = '_') : c = '_' := by
  rcases toLowerChar_cases c with hm | hfix
  · rw [h] at hm
    exact absurd hm (by decide)
  · rw [← hfix, h]

/-- Mapping a pointwise-fixed function over a list is the identity. -/
theorem map_eq_self_of_fix {α : Type} {f : α → α} :
    ∀ {l : List α}, (∀ c ∈ l, f c = c) → l.map f = l
  | [], _ => rfl
  | a :: l, h => by
    rw [List.map_cons, h a (List.mem_cons_self a l),
      map_eq_self_of_fix (fun c hc => h c (List.mem_cons_of_mem a hc))]

/-- `pyStrip` splits its input into whitespace margins around its output. -/
theorem pyStrip_split (cs : List Char) :
    ∃ pre suf, cs = pre ++ pyStrip cs ++ suf ∧
      (∀ c ∈ pre, isSpaceChar c = true) ∧ (∀ c ∈ suf, isSpaceChar c = true) := by
  refine ⟨cs.takeWhile isSpaceChar,
    ((cs.dropWhile isSpaceChar).reverse.takeWhile isSpaceChar).reverse, ?_, ?_, ?_⟩
  · have h1 :
        (cs.dropWhile isSpaceChar).reverse.takeWhile isSpaceChar ++
            (cs.dropWhile isSpaceChar).reverse.dropWhile isSpaceChar =
          (cs.dropWhile isSpaceChar).reverse :=
      List.takeWhile_append_dropWhile _ _
    have h2 := congrArg List.reverse h1
    rw [List.reverse_append, List.reverse_reverse] at h2
    conv_lhs => rw [← List.takeWhile_append_dropWhile (p := isSpaceChar) (l := cs)]
    rw [List.append_assoc]
    exact congrArg (cs.takeWhile isSpaceChar ++ ·) h2.symm
  · exact fun c hc => List.mem_takeWhile_imp hc
  · intro c hc
    rw [List.mem_reverse] at hc
    exact List.mem_takeWhile_imp hc

theorem mem_pyStrip {cs : List Char} {c : Char} (h : c ∈ pyStrip cs) : c ∈ cs := by
  obtain ⟨pre, suf, hsplit, -, -⟩ := pyStrip_split cs
  rw [hsplit]
  simp only [List.mem_append]
  exact Or.inl (Or.inr h)

/-- The first element surviving a `dropWhile` fails the predicate. -/
theorem dropWhile_head_false {α : Type} {p : α → Bool} {l : List α} {c : α}
    (h : (l.dropWhile p).head? = some c) : p c = false := by
  have hd := List.head?_dropWhile_not p l
  rw [h] at hd
  exact hd

/-- `dropWhile` is the identity when the head (if any) fails the
predicate. -/
theorem dropWhile_eq_self_of_head {α : Type} {p : α → Bool} {l : List α}
    (h : ∀ c, l.head? = some c → p c = false) : l.dropWhile p = l := by
  cases l with
  | nil => rfl
  | cons a l => simp [List.dropWhile_cons, h a rfl]

theorem pyStrip_last_not_space {cs : List Char} {c : Char}
    (h : (pyStrip cs).getLast? = some c) : isSpaceChar c = false := by
  unfold pyStrip at h
  rw [List.getLast?_reverse] at h
  exact dropWhile_head_false h

theorem pyStrip_head_not_space {cs : List Char} {c : Char}
    (h : (pyStrip cs).head? = some c) : isSpaceChar c = false := by
  unfold pyStrip at h
  rw [List.head?_reverse] at h
  obtain ⟨t, ht⟩ :=
    List.dropWhile_suffix (l := (cs.dropWhile isSpaceChar).reverse) isSpaceChar
  have hlast : (cs.dropWhile isSpaceChar).reverse.getLast? = some c := by
    rw [← ht, List.getLast?_append, h]
    rfl
  rw [List.getLast?_reverse] at hlast
  exact dropWhile_head_false hlast

theorem pyStrip_idem (cs : List Char) : pyStrip (pyStrip cs) = pyStrip cs := by
  conv_lhs => rw [pyStrip]
  rw [dropWhile_eq_self_of_head (fun c hc => pyStrip_head_not_space hc),
    dropWhile_eq_self_of_head
      (fun c hc => by
        rw [List.head?_reverse] at hc
        exact pyStrip_last_not_space hc),
    List.reverse_reverse]

/-! Equation lemmas and fixed-point analysis for `collapseAux`. -/

theorem collapseAux_true_run {a : Char} {z : List Char} (h : isRunChar a = true) :
    collapseAux true (a :: z) = collapseAux true z := by
  simp [collapseAux, h]

theorem collapseAux_false_run {a : Char} {z : List Char} (h : isRunChar a = true) :
    collapseAux false (a :: z) = ' ' :: collapseAux true z := by
  simp [collapseAux, h]

theorem collapseAux_nonrun {b : Bool} {a : Char} {z : List Char} (h : isRunChar a = false) :
    collapseAux b (a :: z) = a :: collapseAux false z := by
  cases b <;> simp [collapseAux, h]

/-- The output of the in-run state never starts with a collapsible
character. -/
theorem collapse_true_head :
    ∀ (z : List Char) (c : Char), (collapseAux true z).head? = some c →
      isRunChar c = false := by
  intro z
  induction z with
  | nil => intro c h; cases h
  | cons a z ih =>
    intro c h
    by_cases hr : isRunChar a = true
    · rw [collapseAux_true_run hr] at h
      exact ih c h
    · have hr' : isRunChar a = false := by simpa using hr
      rw [collapseAux_nonrun hr'] at h
      cases h
      exact hr'

theorem mem_collapseAux : ∀ {b : Bool} {z : List Char} {c : Char},
    c ∈ collapseAux b z → c = ' ' ∨ c ∈ z := by
  intro b z
  induction z generalizing b with
  | nil => intro c h; cases h
  | cons a z ih =>
    intro c h
    by_cases hr : isRunChar a = true
    · cases b
      · rw [collapseAux_false_run hr] at h
        rcases List.mem_cons.mp h with rfl | h'
        · exact Or.inl rfl
        · rcases ih h' with h'' | h''
          · exact Or.inl h''
          · exact Or.inr (List.mem_cons_of_mem _ h'')
      · rw [collapseAux_true_run hr] at h
        rcases ih h with h'' | h''
        · exact Or.inl h''
        · exact Or.inr (List.mem_cons_of_mem _ h'')
    · have hr' : isRunChar a = false := by simpa using hr
      rw [collapseAux_nonrun hr'] at h
      rcases List.mem_cons.mp h with rfl | h'
      · exact Or.inr (List.mem_cons_self _ _)
      · rcases ih h' with h'' | h''
        · exact Or.inl h''
        · exact Or.inr (List.mem_cons_of_mem _ h'')

/-- The output of `collapseAux` is a fixed point of collapsing. -/
theorem collapse_ok : ∀ (z : List Char) (b : Bool), collapsedOK (collapseAux b z) := by
  intro z
  induction z with
  | nil =>
    intro b
    exact ⟨fun c hc => absurd hc (List.not_mem_nil c), List.chain'_nil⟩
  | cons a z ih =>
    intro b
    by_cases hr : isRunChar a = true
    · cases b
      · rw [collapseAux_false_run hr]
        constructor
        · intro c hc hrc
          rcases List.mem_cons.mp hc with rfl | h'
          · rfl
          · exact (ih true).1 c h' hrc
        · rw [List.chain'_cons']
          exact ⟨fun y hy _ => collapse_true_head z y hy, (ih true).2⟩
      · rw [collapseAux_true_run hr]
        exact ih true
    · have hr' : isRunChar a = false := by simpa using hr
      rw [collapseAux_nonrun hr']
      constructor
      · intro c hc hrc
        rcases List.mem_cons.mp hc with rfl | h'
        · rw [hr'] at hrc
          cases hrc
        · exact (ih false).1 c h' hrc
      · rw [List.chain'_cons']
        refine ⟨fun y hy ha => absurd ha (by simp [hr']), (ih false).2⟩

/-- A `collapsedOK` list is a fixed point of `collapseAux` (in the
out-of-run state; in the in-run state provided it does not start with a
space). -/
theorem collapse_fix : ∀ (w : List Char), collapsedOK w →
    collapseAux false w = w ∧
      ((∀ c, w.head? = some c → c ≠ ' ') → collapseAux true w = w) := by
  intro w
  induction w with
  | nil => exact fun _ => ⟨rfl, fun _ => rfl⟩
  | cons a w ih =>
    intro hok
    have hok' : collapsedOK w :=
      ⟨fun c hc => hok.1 c (List.mem_cons_of_mem _ hc), hok.2.tail⟩
    by_cases hr : isRunChar a = true
    · have ha : a = ' ' := hok.1 a (List.mem_cons_self _ _) hr
      subst ha
      have hw : ∀ c, w.head? = some c → c ≠ ' ' := by
        intro c hc heq
        have hcr := (List.chain'_cons'.mp hok.2).1 c hc (by decide)
        rw [heq] at hcr
        cases hcr
      constructor
      · rw [collapseAux_false_run hr, (ih hok').2 hw]
      · intro hhead
        exact absurd rfl (hhead ' ' rfl)
    · have hr' : isRunChar a = false := by simpa using hr
      constructor
      · rw [collapseAux_nonrun hr', (ih hok').1]
      · intro _
        rw [collapseAux_nonrun hr', (ih hok').1]

/-- `pyStrip` preserves `collapsedOK`. -/
theorem collapsedOK_pyStrip {w : List Char} (h : collapsedOK w) :
    collapsedOK (pyStrip w) := by
  obtain ⟨pre, suf, hsplit, -, -⟩ := pyStrip_split w
  constructor
  · intro c hc
    exact h.1 c (mem_pyStrip hc)
  · have hch := h.2
    rw [hsplit, List.chain'_append, List.chain'_append] at hch
    exact hch.1.2.1

/-! Equation lemmas for the suffix-removal scan. -/

theorem stripCompany_zero (prevW : Bool) (cs : List Char) :
    stripCompany 0 prevW cs = cs := rfl

theorem stripCompany_nil (fuel : Nat) (prevW : Bool) :
    stripCompany fuel prevW [] = [] := by
  cases fuel <;> rfl

theorem stripCompany_true (fuel : Nat) (c : Char) (cs : List Char) :
    stripCompany (fuel + 1) true (c :: cs) =
      c :: stripCompany fuel (isWordChar c) cs := rfl

theorem stripCompany_copy {c : Char} {cs : List Char} (fuel : Nat)
    (hfp : findPattern companySuffixes (c :: cs) = none) :
    stripCompany (fuel + 1) false (c :: cs) =
      c :: stripCompany fuel (isWordChar c) cs := by
  simp [stripCompany, subAltAux, hfp]

theorem stripCompany_match_dot {c : Char} {cs rest : List Char}
    {p : List Char} (fuel : Nat)
    (hfp : findPattern companySuffixes (c :: cs) = some p)
    (hd : List.drop p.length (c :: cs) = '.' :: rest) :
    stripCompany (fuel + 1) false (c :: cs) = stripCompany fuel false rest := by
  simp [stripCompany, subAltAux, hfp, hd]

theorem stripCompany_match_nil {c : Char} {cs : List Char} {p : List Char} (fuel : Nat)
    (hfp : findPattern companySuffixes (c :: cs) = some p)
    (hd : List.drop p.length (c :: cs) = []) :
    stripCompany (fuel + 1) false (c :: cs) =
      stripCompany fuel (isWordChar (p.getLastD ' ')) [] := by
  simp [stripCompany, subAltAux, hfp, hd]

theorem stripCompany_match_cons {c d : Char} {cs rest : List Char} {p : List Char}
    (fuel : Nat)
    (hfp : findPattern companySuffixes (c :: cs) = some p)
    (hd : List.drop p.length (c :: cs) = d :: rest) (hne : d ≠ '.') :
    stripCompany (fuel + 1) false (c :: cs) =
      stripCompany fuel (isWordChar (p.getLastD ' ')) (d :: rest) := by
  have hsc : (if (false : Bool) = true then none
      else findPattern companySuffixes (c :: cs)) = some p := by simpa using hfp
  simp only [stripCompany, subAltAux, hsc, hd, List.nil_append]
  split
  · rename_i heq
    injection heq with h1 h2
    exact absurd h1 hne
  · rfl

/-! Facts about the suffix tokens and `findPattern`. -/

theorem companySuffixes_ne_nil : ∀ p ∈ companySuffixes, p ≠ [] := by decide

theorem companySuffixes_word : ∀ p ∈ companySuffixes, ∀ c ∈ p, isWordChar c = true := by
  decide

theorem getLastD_mem : ∀ (l : List Char), l ≠ [] → ∀ d : Char, l.getLastD d ∈ l := by
  intro l
  induction l with
  | nil => intro h; exact absurd rfl h
  | cons a l ih =>
    intro _ d
    cases hl : l with
    | nil => exact List.mem_singleton.mpr rfl
    | cons b t =>
      rw [List.getLastD_cons, ← hl]
      exact List.mem_cons_of_mem a (ih (by rw [hl]; exact List.cons_ne_nil b t) a)

/-- The last character of any suffix token is a word character. -/
theorem companySuffixes_last_word {p : List Char} (hp : p ∈ companySuffixes) :
    isWordChar (p.getLastD ' ') = true :=
  companySuffixes_word p hp _ (getLastD_mem p (companySuffixes_ne_nil p hp) ' ')

theorem isPre_append : ∀ (p r : List Char), p.isPrefixOf (p ++ r) = true
  | [], _ => by simp [List.isPrefixOf]
  | a :: p, r => by simp [List.isPrefixOf, isPre_append p r]

theorem isPre_eq_append : ∀ {p cs : List Char}, p.isPrefixOf cs = true →
    cs = p ++ List.drop p.length cs := by
  intro p
  induction p with
  | nil => intro cs _; rfl
  | cons a p ih =>
    intro cs h
    cases cs with
    | nil => simp [List.isPrefixOf] at h
    | cons b cs =>
      rw [List.isPrefixOf] at h
      rw [Bool.and_eq_true, beq_iff_eq] at h
      obtain ⟨rfl, h2⟩ := h
      have := ih h2
      simp only [List.length_cons, List.drop_succ_cons, List.cons_append]
      exact congrArg (a :: ·) this

theorem findPattern_some_spec {cs p : List Char}
    (h : findPattern companySuffixes cs = some p) :
    p ∈ companySuffixes ∧ cs = p ++ List.drop p.length cs ∧
      boundaryAfter (List.drop p.length cs) = true := by
  have hmem := List.mem_of_find?_eq_some h
  have hpred := List.find?_some h
  rw [Bool.and_eq_true] at hpred
  exact ⟨hmem, isPre_eq_append hpred.1, hpred.2⟩

theorem findPattern_none_spec {cs : List Char}
    (h : findPattern companySuffixes cs = none) :
    ∀ p ∈ companySuffixes, ∀ r, cs = p ++ r → boundaryAfter r = false := by
  intro p hp r hr
  have hnot := List.find?_eq_none.mp h p hp
  rw [hr, Bool.and_eq_true] at hnot
  rw [List.drop_left] at hnot
  rcases Bool.eq_false_or_eq_true (boundaryAfter r) with hb | hb
  · exact absurd ⟨isPre_append p r, hb⟩ hnot
  · exact hb

/-- With `prevW = true` the scan copies the head, so the output head is
the input head. -/
theorem stripCompany_head : ∀ (fuel : Nat) (cs : List Char),
    (stripCompany fuel true cs).head? = cs.head?
  | 0, _ => rfl
  | _ + 1, [] => rfl
  | fuel + 1, c :: cs => by rw [stripCompany_true]; rfl

/-- A word-character segment at the start of the scan output is a literal
segment of the input, and the remaining output is the scan of the
remaining input. -/
theorem stripCompany_word_seg :
    ∀ (w : List Char) (fuel : Nat) (cs r : List Char),
      (∀ c ∈ w, isWordChar c = true) → cs.length ≤ fuel →
      stripCompany fuel true cs = w ++ r →
      ∃ cs₂ fuel₂, cs = w ++ cs₂ ∧ cs₂.length ≤ fuel₂ ∧
        stripCompany fuel₂ true cs₂ = r := by
  intro w
  induction w with
  | nil => exact fun fuel cs r _ hle h => ⟨cs, fuel, rfl, hle, h⟩
  | cons d w ih =>
    intro fuel cs r hw hle h
    cases cs with
    | nil =>
      rw [stripCompany_nil] at h
      exact absurd h.symm (List.cons_ne_nil _ _)
    | cons c cs =>
      cases fuel with
      | zero => simp at hle
      | succ f =>
        rw [stripCompany_true, List.cons_append] at h
        injection h with h1 h2
        subst h1
        rw [hw c (List.mem_cons_self _ _)] at h2
        obtain ⟨cs₂, fuel₂, hsplit, hle₂, hr⟩ :=
          ih f cs r (fun c hc => hw c (List.mem_cons_of_mem _ hc))
            (by simpa using hle) h2
        exact ⟨cs₂, fuel₂, by rw [hsplit, List.cons_append], hle₂, hr⟩

/-! The scan output contains no boundary-delimited suffix token, and a
string with no such token is a fixed point of the scan. -/

theorem leftOkRel_nil_false : leftOkRel false [] :=
  ⟨fun _ => rfl, fun _ hc => nomatch hc⟩

theorem NoBadRel_nil (prevW : Bool) : NoBadRel prevW [] := by
  intro a p r hp hout _ _
  have h := hout.symm
  rw [List.append_eq_nil, List.append_eq_nil] at h
  exact companySuffixes_ne_nil p hp h.1.2

/-- Push `NoBadRel` under a cons: the tail must be clean for the
post-head context, and (when the left context admits a boundary) no token
may sit at the very head. -/
theorem NoBadRel_cons {c : Char} {out' : List Char} {prevW : Bool}
    (hrec : NoBadRel (isWordChar c) out')
    (hhead : prevW = false →
      ∀ p ∈ companySuffixes, ∀ r, c :: out' = p ++ r → boundaryAfter r = true → False) :
    NoBadRel prevW (c :: out') := by
  intro a p r hp hout hb hl
  cases a with
  | nil =>
    exact hhead (hl.1 rfl) p hp r (by simpa using hout) hb
  | cons x a' =>
    rw [List.cons_append, List.cons_append] at hout
    injection hout with h1 h2
    subst h1
    apply hrec a' p r hp h2 hb
    constructor
    · intro ha'
      subst ha'
      exact hl.2 c (by simp)
    · intro e he
      apply hl.2 e
      cases a' with
      | nil => exact nomatch he
      | cons y a'' => rw [List.getLast?_cons_cons]; exact he

/-- If the whole string is clean after a (copied) character, it is clean
from that character's context on. -/
theorem NoBadRel_step {c : Char} {cs : List Char} {prevW : Bool}
    (h : NoBadRel prevW (c :: cs)) : NoBadRel (isWordChar c) cs := by
  intro a p r hp hout hb hl
  apply h (c :: a) p r hp (by rw [hout, List.cons_append, List.cons_append]) hb
  constructor
  · intro hca
    exact nomatch hca
  · intro e he
    cases a with
    | nil =>
      have hec : c = e := by simpa using he
      rw [← hec]
      exact hl.1 rfl
    | cons y a'' =>
      rw [List.getLast?_cons_cons] at he
      exact hl.2 e he

/-- **Key invariant.** The output of the suffix-removal scan contains no
boundary-delimited suffix token (relative to the scan's left context). -/
theorem stripCompany_nb : ∀ (fuel : Nat) (prevW : Bool) (cs : List Char),
    cs.length ≤ fuel → NoBadRel prevW (stripCompany fuel prevW cs) := by
  intro fuel
  induction fuel with
  | zero =>
    intro prevW cs hle
    have hnil : cs = [] := by
      rw [← List.length_eq_zero]
      omega
    subst hnil
    exact NoBadRel_nil prevW
  | succ f ih =>
    intro prevW cs hle
    cases cs with
    | nil =>
      rw [stripCompany_nil]
      exact NoBadRel_nil prevW
    | cons c cs =>
      have hlecs : cs.length ≤ f := by simpa using hle
      cases prevW with
      | true =>
        rw [stripCompany_true]
        exact NoBadRel_cons (ih (isWordChar c) cs hlecs) (fun hfalse => nomatch hfalse)
      | false =>
        cases hfp : findPattern companySuffixes (c :: cs) with
        | none =>
          rw [stripCompany_copy f hfp]
          refine NoBadRel_cons (ih (isWordChar c) cs hlecs) ?_
          intro _ p hp r hout hb
          obtain ⟨p', rfl⟩ : ∃ p', p = c :: p' := by
            cases p with
            | nil => exact absurd rfl (companySuffixes_ne_nil [] hp)
            | cons e p' =>
              rw [List.cons_append] at hout
              injection hout with h1 _
              exact ⟨p', by rw [h1]⟩
          rw [List.cons_append] at hout
          injection hout with _ h2
          have hcw : isWordChar c = true :=
            companySuffixes_word _ hp c (List.mem_cons_self _ _)
          rw [hcw] at h2
          obtain ⟨cs₂, fuel₂, hsplit, hle₂, hr⟩ :=
            stripCompany_word_seg p' f cs r
              (fun x hx => companySuffixes_word _ hp x (List.mem_cons_of_mem _ hx))
              hlecs h2
          have hbcs : boundaryAfter cs₂ = true := by
            cases hr2 : r with
            | nil =>
              rw [hr2] at hr
              cases cs₂ with
              | nil => rfl
              | cons y cs₃ =>
                have hh := stripCompany_head fuel₂ (y :: cs₃)
                rw [hr] at hh
                exact nomatch hh
            | cons y r' =>
              have hh := stripCompany_head fuel₂ cs₂
              rw [hr, hr2] at hh
              cases cs₂ with
              | nil => exact nomatch hh
              | cons z cs₃ =>
                have hzy : y = z := by simpa using hh
                rw [hr2] at hb
                subst hzy
                exact hb
          have hcontra := findPattern_none_spec hfp (c :: p') hp cs₂
            (by rw [List.cons_append, hsplit])
          rw [hcontra] at hbcs
          exact nomatch hbcs
        | some p =>
          obtain ⟨hpmem, hsplit, hbd⟩ := findPattern_some_spec hfp
          have hlen := congrArg List.length hsplit
          rw [List.length_append] at hlen
          have hp1 : 1 ≤ p.length := by
            cases hpn : p with
            | nil => exact absurd hpn (companySuffixes_ne_nil p hpmem)
            | cons e p' => simp [hpn]
          cases hd : List.drop p.length (c :: cs) with
          | nil =>
            rw [stripCompany_match_nil f hfp hd, stripCompany_nil]
            exact NoBadRel_nil _
          | cons d rest =>
            by_cases hdot : d = '.'
            · subst hdot
              rw [stripCompany_match_dot f hfp hd]
              apply ih
              rw [hd] at hlen
              simp only [List.length_cons] at hlen hle ⊢
              omega
            · rw [stripCompany_match_cons f hfp hd hdot,
                companySuffixes_last_word hpmem]
              have hlen2 : (d :: rest).length ≤ f := by
                rw [hd] at hlen
                simp only [List.length_cons] at hlen hle ⊢
                omega
              have hnbtrue := ih true (d :: rest) hlen2
              intro a p' r' hp' hout' hb' hl'
              cases a with
              | nil =>
                simp only [List.nil_append] at hout'
                obtain ⟨e, p'', rfl⟩ : ∃ e p'', p' = e :: p'' := by
                  cases p' with
                  | nil => exact absurd rfl (companySuffixes_ne_nil [] hp')
                  | cons e p'' => exact ⟨e, p'', rfl⟩
                have hh := stripCompany_head f (d :: rest)
                rw [hout'] at hh
                have hed : e = d := by simpa using hh
                have hew : isWordChar e = true :=
                  companySuffixes_word _ hp' e (List.mem_cons_self _ _)
                rw [hd] at hbd
                simp only [boundaryAfter, Bool.not_eq_true'] at hbd
                rw [hed, hbd] at hew
                exact nomatch hew
              | cons x a' =>
                apply hnbtrue (x :: a') p' r' hp' hout' hb'
                constructor
                · intro h
                  exact absurd h (List.cons_ne_nil x a')
                · exact hl'.2

/-- A string with no boundary-delimited suffix token is a fixed point of
the suffix-removal scan. -/
theorem stripCompany_fix : ∀ (fuel : Nat) (prevW : Bool) (cs : List Char),
    cs.length ≤ fuel → NoBadRel prevW cs → stripCompany fuel prevW cs = cs := by
  intro fuel
  induction fuel with
  | zero => intro prevW cs _ _; exact stripCompany_zero _ _
  | succ f ih =>
    intro prevW cs hle hnb
    cases cs with
    | nil => exact stripCompany_nil _ _
    | cons c cs =>
      have hlecs : cs.length ≤ f := by simpa using hle
      cases prevW with
      | true =>
        rw [stripCompany_true, ih (isWordChar c) cs hlecs (NoBadRel_step hnb)]
      | false =>
        cases hfp : findPattern companySuffixes (c :: cs) with
        | none =>
          rw [stripCompany_copy f hfp, ih _ cs hlecs (NoBadRel_step hnb)]
        | some p =>
          obtain ⟨hpmem, hsplit, hbd⟩ := findPattern_some_spec hfp
          exact (hnb [] p _ hpmem (by simpa using hsplit) hbd leftOkRel_nil_false).elim

/-! Collapsing and stripping preserve the absence of boundary-delimited
suffix tokens (for underscore-free strings: `_` is the one collapsible
character that is also a word character, so collapsing it *creates*
boundaries). -/

theorem space_not_word {c : Char} (h : isSpaceChar c = true) : isWordChar c = false := by
  simp only [isSpaceChar, Bool.or_eq_true, beq_iff_eq] at h
  rcases h with ((((rfl | rfl) | rfl) | rfl) | rfl) | rfl <;> decide

theorem run_not_word {c : Char} (h : isRunChar c = true) (hne : c ≠ '_') :
    isWordChar c = false := by
  simp only [isRunChar, Bool.or_eq_true, beq_iff_eq] at h
  rcases h with (rfl | rfl) | hsp
  · decide
  · exact absurd rfl hne
  · exact space_not_word hsp

/-- A word-character segment at the start of the collapse output is a
literal segment of the input. -/
theorem collapse_word_seg : ∀ (w z r : List Char), (∀ c ∈ w, isWordChar c = true) →
    collapseAux false z = w ++ r → ∃ z₂, z = w ++ z₂ ∧ r = collapseAux false z₂ := by
  intro w
  induction w with
  | nil => exact fun z r _ h => ⟨z, rfl, h.symm⟩
  | cons d w ih =>
    intro z r hw h
    cases z with
    | nil => exact absurd h.symm (List.cons_ne_nil _ _)
    | cons a z' =>
      by_cases hr : isRunChar a = true
      · rw [collapseAux_false_run hr] at h
        injection h with h1 _
        have hdw : isWordChar d = true := hw d (List.mem_cons_self _ _)
        rw [← h1] at hdw
        exact absurd hdw (by decide)
      · have hr' : isRunChar a = false := by simpa using hr
        rw [collapseAux_nonrun hr'] at h
        injection h with h1 h2
        subst h1
        obtain ⟨z₂, hz, hrr⟩ := ih z' r (fun c hc => hw c (List.mem_cons_of_mem _ hc)) h2
        exact ⟨z₂, by rw [hz, List.cons_append], hrr⟩

/-- A boundary after the collapse output transfers to the input (no
underscores). -/
theorem collapse_boundary {z₃ : List Char} (hnu : '_' ∉ z₃)
    (hb : boundaryAfter (collapseAux false z₃) = true) : boundaryAfter z₃ = true := by
  cases z₃ with
  | nil => rfl
  | cons e z4 =>
    by_cases hr : isRunChar e = true
    · have hne : e ≠ '_' := fun h => hnu (by rw [h]; exact List.mem_cons_self _ _)
      simp [boundaryAfter, run_not_word hr hne]
    · have hr' : isRunChar e = false := by simpa using hr
      rw [collapseAux_nonrun hr'] at hb
      simpa [boundaryAfter] using hb

/-- Any boundary-delimited token occurrence in the collapse output comes
from one in the input (no underscores). -/
theorem collapse_nb_transfer : ∀ (z : List Char) (b : Bool) (a p r : List Char),
    '_' ∉ z → p ∈ companySuffixes → collapseAux b z = a ++ p ++ r →
    boundaryAfter r = true → leftOkRel false a →
    ∃ a₀ r₀, z = a₀ ++ p ++ r₀ ∧ boundaryAfter r₀ = true ∧ leftOkRel false a₀ ∧
      (a₀ = [] → a = []) := by
  intro z
  induction z with
  | nil =>
    intro b a p r _ hp h _ _
    have h' := h.symm
    rw [show collapseAux b [] = [] from rfl] at h'
    rw [List.append_eq_nil, List.append_eq_nil] at h'
    exact absurd h'.1.2 (companySuffixes_ne_nil p hp)
  | cons c z' ih =>
    intro b a p r hnu hp h hb hl
    have hnu' : '_' ∉ z' := fun hm => hnu (List.mem_cons_of_mem _ hm)
    have hcne : c ≠ '_' := fun he => hnu (by rw [he]; exact List.mem_cons_self _ _)
    by_cases hr : isRunChar c = true
    · have hcw : isWordChar c = false := run_not_word hr hcne
      cases b with
      | true =>
        rw [collapseAux_true_run hr] at h
        obtain ⟨a₀, r₀, hz, hb₀, hl₀, hnil⟩ := ih true a p r hnu' hp h hb hl
        refine ⟨c :: a₀, r₀,
          by rw [hz, List.cons_append, List.cons_append], hb₀,
          ⟨fun h' => rfl, ?_⟩, fun h' => absurd h' (List.cons_ne_nil _ _)⟩
        intro e he
        cases a₀ with
        | nil =>
          have : c = e := by simpa using he
          rw [← this]
          exact hcw
        | cons y t =>
          rw [List.getLast?_cons_cons] at he
          exact hl₀.2 e he
      | false =>
        rw [collapseAux_false_run hr] at h
        cases a with
        | nil =>
          simp only [List.nil_append] at h
          obtain ⟨e, p', rfl⟩ : ∃ e p', p = e :: p' := by
            cases p with
            | nil => exact absurd rfl (companySuffixes_ne_nil [] hp)
            | cons e p' => exact ⟨e, p', rfl⟩
          rw [List.cons_append] at h
          injection h with h1 _
          have hew : isWordChar e = true :=
            companySuffixes_word _ hp e (List.mem_cons_self _ _)
          rw [← h1] at hew
          exact absurd hew (by decide)
        | cons x a' =>
          rw [List.cons_append, List.cons_append] at h
          injection h with h1 h2
          have hl' : leftOkRel false a' := by
            refine ⟨fun _ => rfl, fun e he => ?_⟩
            apply hl.2 e
            cases a' with
            | nil => exact nomatch he
            | cons y t => rw [List.getLast?_cons_cons]; exact he
          obtain ⟨a₀, r₀, hz, hb₀, hl₀, hnil⟩ := ih true a' p r hnu' hp h2 hb hl'
          refine ⟨c :: a₀, r₀,
            by rw [hz, List.cons_append, List.cons_append], hb₀,
            ⟨fun h' => rfl, ?_⟩, fun h' => absurd h' (List.cons_ne_nil _ _)⟩
          intro e he
          cases a₀ with
          | nil =>
            have : c = e := by simpa using he
            rw [← this]
            exact hcw
          | cons y t =>
            rw [List.getLast?_cons_cons] at he
            exact hl₀.2 e he
    · have hr' : isRunChar c = false := by simpa using hr
      rw [collapseAux_nonrun hr'] at h
      cases a with
      | nil =>
        simp only [List.nil_append] at h
        obtain ⟨e, p', rfl⟩ : ∃ e p', p = e :: p' := by
          cases p with
          | nil => exact absurd rfl (companySuffixes_ne_nil [] hp)
          | cons e p' => exact ⟨e, p', rfl⟩
        rw [List.cons_append] at h
        injection h with h1 h2
        subst h1
        obtain ⟨z₂, hz, hrr⟩ := collapse_word_seg p' z' r
          (fun x hx => companySuffixes_word _ hp x (List.mem_cons_of_mem _ hx)) h2
        have hnu₂ : '_' ∉ z₂ := fun hm => hnu' (by rw [hz]; exact List.mem_append_right _ hm)
        refine ⟨[], z₂, ?_, ?_, leftOkRel_nil_false, fun _ => rfl⟩
        · rw [List.nil_append, List.cons_append, hz]
        · rw [hrr] at hb
          exact collapse_boundary hnu₂ hb
      | cons x a' =>
        rw [List.cons_append, List.cons_append] at h
        injection h with h1 h2
        subst h1
        have hl' : leftOkRel false a' := by
          refine ⟨fun _ => rfl, fun e he => ?_⟩
          apply hl.2 e
          cases a' with
          | nil => exact nomatch he
          | cons y t => rw [List.getLast?_cons_cons]; exact he
        obtain ⟨a₀, r₀, hz, hb₀, hl₀, hnil⟩ := ih false a' p r hnu' hp h2 hb hl'
        refine ⟨c :: a₀, r₀,
          by rw [hz, List.cons_append, List.cons_append], hb₀,
          ⟨fun h' => rfl, ?_⟩, fun h' => absurd h' (List.cons_ne_nil _ _)⟩
        intro e he
        cases a₀ with
        | nil =>
          have hce : c = e := by simpa using he
          have ha' : a' = [] := hnil rfl
          rw [← hce]
          subst ha'
          exact hl.2 c (by simp)
        | cons y t =>
          rw [List.getLast?_cons_cons] at he
          exact hl₀.2 e he

/-- On underscore-free strings, collapsing preserves the no-token
property. -/
theorem collapse_nb {z : List Char} (hnu : '_' ∉ z) (hnb : NoBadRel false z) :
    NoBadRel false (collapseRuns z) := by
  intro a p r hp h hb hl
  obtain ⟨a₀, r₀, hz, hb₀, hl₀, -⟩ := collapse_nb_transfer z false a p r hnu hp h hb hl
  exact hnb a₀ p r₀ hp hz hb₀ hl₀

/-- Stripping outer whitespace preserves the no-token property. -/
theorem pyStrip_nb {w : List Char} (hnb : NoBadRel false w) :
    NoBadRel false (pyStrip w) := by
  obtain ⟨pre, suf, hsplit, hpre, hsuf⟩ := pyStrip_split w
  intro a p r hp h hb hl
  apply hnb (pre ++ a) p (r ++ suf) hp
  · rw [hsplit, h]
    simp [List.append_assoc]
  · cases r with
    | nil =>
      cases hs : suf with
      | nil => rfl
      | cons e s' =>
        have : isWordChar e = false :=
          space_not_word (hsuf e (by rw [hs]; exact List.mem_cons_self _ _))
        simp [boundaryAfter, this]
    | cons d r' =>
      simpa [boundaryAfter] using hb
  · refine ⟨fun _ => rfl, fun e he => ?_⟩
    cases ha : a with
    | nil =>
      rw [ha, List.append_nil] at he
      exact space_not_word (hpre e (List.mem_of_mem_getLast? he))
    | cons x t =>
      rw [ha] at he hl
      rw [List.getLast?_append] at he
      cases hx : (x :: t).getLast? with
      | none =>
        rw [List.getLast?_eq_none_iff] at hx
        exact absurd hx (List.cons_ne_nil x t)
      | some y =>
        rw [hx, Option.or_some] at he
        have hye : y = e := by injection he
        rw [hye] at hx
        exact hl.2 e hx

/-- The scan only ever deletes characters. -/
theorem mem_stripCompany : ∀ (fuel : Nat) (prevW : Bool) (cs : List Char) (c : Char),
    c ∈ stripCompany fuel prevW cs → c ∈ cs := by
  intro fuel
  induction fuel with
  | zero => intro prevW cs c hc; exact hc
  | succ f ih =>
    intro prevW cs c hc
    cases cs with
    | nil => rw [stripCompany_nil] at hc; exact hc
    | cons c₀ cs' =>
      cases prevW with
      | true =>
        rw [stripCompany_true] at hc
        rcases List.mem_cons.mp hc with rfl | hc'
        · exact List.mem_cons_self _ _
        · exact List.mem_cons_of_mem _ (ih _ cs' c hc')
      | false =>
        cases hfp : findPattern companySuffixes (c₀ :: cs') with
        | none =>
          rw [stripCompany_copy f hfp] at hc
          rcases List.mem_cons.mp hc with rfl | hc'
          · exact List.mem_cons_self _ _
          · exact List.mem_cons_of_mem _ (ih _ cs' c hc')
        | some p =>
          cases hd : List.drop p.length (c₀ :: cs') with
          | nil =>
            rw [stripCompany_match_nil f hfp hd, stripCompany_nil] at hc
            exact absurd hc (List.not_mem_nil c)
          | cons d rest =>
            by_cases hdot : d = '.'
            · subst hdot
              rw [stripCompany_match_dot f hfp hd] at hc
              have : c ∈ List.drop p.length (c₀ :: cs') := by
                rw [hd]
                exact List.mem_cons_of_mem _ (ih _ rest c hc)
              exact List.mem_of_mem_drop this
            · rw [stripCompany_match_cons f hfp hd hdot] at hc
              have : c ∈ List.drop p.length (c₀ :: cs') := by
                rw [hd]
                exact ih _ (d :: rest) c hc
              exact List.mem_of_mem_drop this

/-- A fully normalized company name (underscore-free pipeline output) is a
fixed point of `normalize_company_name`. -/
theorem normalize_company_name_fixed {y : List Char} (hnb : NoBadRel false y)
    (hok : collapsedOK y) (hfix : ∀ c ∈ y, toLowerChar c = c)
    (hstrip : pyStrip y = y) :
    normalize_company_name (String.mk y) = String.mk y := by
  by_cases hy : String.mk y = ""
  · rw [hy]
    decide
  · show String.mk (pyStrip (collapseRuns
      (subAlt companySuffixes [] true (normalize_text (String.mk y)).data))) = String.mk y
    have h1 : normalize_text (String.mk y) = String.mk (pyStrip (y.map toLowerChar)) := by
      unfold normalize_text
      rw [if_neg hy]
    rw [h1]
    show String.mk (pyStrip (collapseRuns
      (subAlt companySuffixes [] true (pyStrip (y.map toLowerChar))))) = String.mk y
    rw [map_eq_self_of_fix hfix, hstrip,
      show subAlt companySuffixes [] true y = stripCompany y.length false y from rfl,
      stripCompany_fix y.length false y le_rfl hnb,
      show collapseRuns y = y from (collapse_fix y hok).1, hstrip]

/-- **C6 (amended).** `normalize_company_name` is idempotent on every
string that contains no underscore.  (The unamended claim fails exactly
through underscores, see `normalize_company_name_not_idempotent`.) -/
theorem normalize_company_name_idem_no_underscore (s : String) (h : '_' ∉ s.data) :
    normalize_company_name (normalize_company_name s) = normalize_company_name s := by
  by_cases hs : s = ""
  · subst hs
    decide
  · have hnt : normalize_text s = String.mk (pyStrip (s.data.map toLowerChar)) := by
      unfold normalize_text
      rw [if_neg hs]
    have hns : normalize_company_name s =
        String.mk (pyStrip (collapseRuns
          (stripCompany (pyStrip (s.data.map toLowerChar)).length false
            (pyStrip (s.data.map toLowerChar))))) := by
      show String.mk (pyStrip (collapseRuns
        (subAlt companySuffixes [] true (normalize_text s).data))) = _
      rw [hnt]
      rfl
    have hw₁nu : '_' ∉ pyStrip (s.data.map toLowerChar) := by
      intro hm
      rcases List.mem_map.mp (mem_pyStrip hm) with ⟨c₀, hc₀, hlc⟩
      rw [toLowerChar_eq_underscore hlc] at hc₀
      exact h hc₀
    have hnbz := stripCompany_nb (pyStrip (s.data.map toLowerChar)).length false
      (pyStrip (s.data.map toLowerChar)) le_rfl
    have hznu : '_' ∉ stripCompany (pyStrip (s.data.map toLowerChar)).length false
        (pyStrip (s.data.map toLowerChar)) :=
      fun hm => hw₁nu (mem_stripCompany _ _ _ _ hm)
    rw [hns]
    apply normalize_company_name_fixed
    · exact pyStrip_nb (collapse_nb hznu hnbz)
    · exact collapsedOK_pyStrip (collapse_ok _ false)
    · intro c hc
      rcases mem_collapseAux (mem_pyStrip hc) with rfl | hc'
      · decide
      · rcases List.mem_map.mp (mem_pyStrip (mem_stripCompany _ _ _ _ hc')) with
          ⟨c₀, -, rfl⟩
        exact toLowerChar_idem c₀
    · exact pyStrip_idem _

/-- Witness for the amended C6 at `"Acme Inc."`. -/
theorem normalize_company_name_idem_no_underscore_witness :
    normalize_company_name (normalize_company_name "Acme Inc.") =
      normalize_company_name "Acme Inc." :=
  normalize_company_name_idem_no_underscore "Acme Inc." (by decide)
